import Mathlib

/-!
# Verification of the `Notifier` deferred-notification helper

Shallow embedding of `src/unnamed/part_000` (class `Notifier`).

Modelling choices:

* A notify callback (`() => void` in the source) is abstracted as a `Cb`
  recording the host remote calls it performs, in order, and whether it
  throws an exception after performing them.  The empty function `() => {}`
  is `noopCb`.
* Because `concat` mutates the receiver's `notifyFns` array in place and
  `combine` short-circuits to the *same instance*, Notifier instances are
  modelled as references (`Nat` indices) into a heap `Heap` mapping each
  instance to its current `notifyFns` list.  Factory and combination
  operations are heap transformers returning `(ref, newHeap)`.
* Host interaction is a trace of `Event`s: `pause`/`resume` for
  `workspace.nvim.pauseNotification()`/`resumeNotification()`, `invoke cb`
  for each callback invocation inside `notify()`, and `hostCall n` for
  the remote calls a callback performs.  Exceptions are modelled by
  `Option Nat` / `Except Nat` error results; a thrown exception aborts the
  enclosing loops exactly as in JavaScript.
-/

/-- A notify callback: the host remote calls it performs (in order) and,
optionally, an exception it throws after performing them.  Abstracts the
`() => void` functions stored in `notifyFns`. -/
structure Cb where
  calls : List Nat
  err : Option Nat
deriving Repr, DecidableEq

/-- The empty callback `() => {}`: performs no host call and does not throw. -/
def noopCb : Cb := ⟨[], none⟩

/-- Observable events, in order of occurrence. -/
inductive Event where
  | pause : Event
  | resume : Event
  | invoke : Cb → Event
  | hostCall : Nat → Event
deriving Repr, DecidableEq

/-- The heap of Notifier instances: index `r` holds instance `r`'s current
`notifyFns` list.  `protected notifyFns: (() => void)[] = []` together with
the constructor's `push` makes a fresh instance hold `[notify]`. -/
abbrev Heap : Type := List (List Cb)

/-- The `notifyFns` list of instance `r` (instances created by the factory
are always in range; out-of-range reads default to `[]`). -/
def fnsOf (h : Heap) (r : Nat) : List Cb := List.getD h r []

/-- Events emitted by invoking one callback: the invocation itself, then
its host calls. -/
def execCbEvents (cb : Cb) : List Event :=
  Event.invoke cb :: cb.calls.map Event.hostCall

/-- Run a list of callbacks in order, as the `for (const fn of this.notifyFns)
fn();` loop of `notify()` does: a thrown exception aborts the loop and
propagates. -/
def runFns : List Cb → List Event × Option Nat
  | [] => ([], none)
  | cb :: rest =>
    match cb.err with
    | some e => (execCbEvents cb, some e)
    | none =>
      let p := runFns rest
      (execCbEvents cb ++ p.1, p.2)

/-- Method `notify()` of instance `r`: runs its `notifyFns` in order. -/
def notifyN (h : Heap) (r : Nat) : List Event × Option Nat :=
  runFns (fnsOf h r)

/-- A `NotifierCell`: either a Notifier reference or an absent marker
(`void | undefined | null`). -/
abbrev Cell : Type := Option Nat

/-- Static `notifyAll(lazyNotifies)`: `for (const n of lazyNotifies) { if (n)
{ n.notify(); } }` — absent cells are skipped; an exception thrown by a
`notify()` aborts the loop and propagates. -/
def notifyAllN (h : Heap) : List Cell → List Event × Option Nat
  | [] => ([], none)
  | none :: rest => notifyAllN h rest
  | some r :: rest =>
    let p := notifyN h r
    match p.2 with
    | some e => (p.1, some e)
    | none =>
      let q := notifyAllN h rest
      (p.1 ++ q.1, q.2)

/-- An element of `runAll`'s input: `NotifierCell | Promise<NotifierCell>` —
either an immediate cell or a deferred computation that resolves to a cell
or rejects with an error. -/
inductive PCell where
  | imm : Cell → PCell
  | pdef : Except Nat Cell → PCell

/-- Resolution step `await Promise.all(notifierPromises)`: resolves every element, preserving
input order; a rejection makes the whole resolution fail. -/
def resolveAll : List PCell → Except Nat (List Cell)
  | [] => Except.ok []
  | PCell.imm c :: rest => (resolveAll rest).map (fun cs => c :: cs)
  | PCell.pdef (Except.ok c) :: rest => (resolveAll rest).map (fun cs => c :: cs)
  | PCell.pdef (Except.error e) :: _ => Except.error e

/-- Static `async runAll(notifierPromises)`:
```
const notifiers = await Promise.all(notifierPromises);
workspace.nvim.pauseNotification();
this.notifyAll(notifiers);
return workspace.nvim.resumeNotification();
```
A rejected resolution propagates before any host interaction.  After the
`pauseNotification()` call, an exception thrown inside `notifyAll` propagates
out of `runAll` directly: there is no `try`/`finally`, so
`resumeNotification()` is not called on that path. -/
def runAllN (h : Heap) (pcells : List PCell) : List Event × Except Nat Unit :=
  match resolveAll pcells with
  | Except.error e => ([], Except.error e)
  | Except.ok refs =>
    let p := notifyAllN h refs
    match p.2 with
    | some e => (Event.pause :: p.1, Except.error e)
    | none => (Event.pause :: (p.1 ++ [Event.resume]), Except.ok ())

/-- Instance method `run()`: `return Notifier.runAll([this])`. -/
def runN (h : Heap) (r : Nat) : List Event × Except Nat Unit :=
  runAllN h [PCell.imm (some r)]

/-- Static `run(notifierPromise)`: absent immediate values return at once;
a promise is awaited (a rejection propagates), and a present result is run. -/
def runStatic (h : Heap) : PCell → List Event × Except Nat Unit
  | PCell.imm none => ([], Except.ok ())
  | PCell.imm (some r) => runN h r
  | PCell.pdef (Except.error e) => ([], Except.error e)
  | PCell.pdef (Except.ok none) => ([], Except.ok ())
  | PCell.pdef (Except.ok (some r)) => runN h r

/-- Static `create(notify)`: `new Notifier(notify)` allocates a fresh instance
whose `notifyFns` is `[notify]`; returns its reference and the new heap. -/
def createN (h : Heap) (cb : Cb) : Nat × Heap :=
  (List.length h, h ++ [[cb]])

/-- Method `concat(notifier)`: `this.notifyFns.push(...notifier.notifyFns); return
this;` — appends a snapshot of the operand's list to the receiver's list in
place and returns the receiver. -/
def concatN (h : Heap) (x y : Nat) : Nat × Heap :=
  (x, List.set h x (fnsOf h x ++ fnsOf h y))

/-- The reducer `(ret, cur) => ret.concat(cur)` of `combine`, with the heap
threaded through, since each `concat` mutates its receiver. -/
def concatStep (p : Nat × Heap) (cur : Nat) : Nat × Heap :=
  concatN p.2 p.1 cur

/-- The branching of `combine` on the compacted list `safeNotifiers`:
```
if (safeNotifiers.length < 1) { return Notifier.create(() => {}); }
if (safeNotifiers.length === 1) { return safeNotifiers[0]; }
return safeNotifiers.slice(1).reduce((ret, cur) => ret.concat(cur), safeNotifiers[0]);
```
-/
def combineCore (h : Heap) : List Nat → Nat × Heap
  | [] => createN h noopCb
  | [n] => (n, h)
  | n0 :: rest => rest.foldl concatStep (n0, h)

/-- Static `combine(notifiers)`: `const safeNotifiers = compact(notifiers)`
(`compact` drops all absent entries, i.e. `reduceOption`), then branch on the
compacted length. -/
def combineN (h : Heap) (cells : List Cell) : Nat × Heap :=
  combineCore h cells.reduceOption

/-- The callbacks invoked along a trace, in order. -/
def invokesOf : List Event → List Cb
  | [] => []
  | Event.invoke cb :: rest => cb :: invokesOf rest
  | Event.pause :: rest => invokesOf rest
  | Event.resume :: rest => invokesOf rest
  | Event.hostCall _ :: rest => invokesOf rest


/-! ## Heap access lemmas -/

theorem fnsOf_set_self (h : Heap) (x : Nat) (v : List Cb) (hx : x < h.length) :
    fnsOf (h.set x v) x = v := by
  simp [fnsOf, List.getD_eq_getElem?_getD, List.getElem?_set_eq_of_lt _ hx]

theorem fnsOf_set_ne (h : Heap) (x y : Nat) (v : List Cb) (hxy : x ≠ y) :
    fnsOf (h.set x v) y = fnsOf h y := by
  simp [fnsOf, List.getD_eq_getElem?_getD, List.getElem?_set_ne hxy]

theorem fnsOf_createN (h : Heap) (cb : Cb) :
    fnsOf (createN h cb).2 (createN h cb).1 = [cb] := by
  simp [fnsOf, createN, List.getD_eq_getElem?_getD, List.getElem?_concat_length]

/-! ## Trace lemmas -/

theorem invokesOf_append (t₁ t₂ : List Event) :
    invokesOf (t₁ ++ t₂) = invokesOf t₁ ++ invokesOf t₂ := by
  induction t₁ with
  | nil => rfl
  | cons e rest ih => cases e <;> simp [invokesOf, ih]

theorem invokesOf_map_hostCall (l : List Nat) :
    invokesOf (l.map Event.hostCall) = [] := by
  induction l with
  | nil => rfl
  | cons n rest ih => simp [invokesOf, ih]

theorem invokesOf_execCbEvents (cb : Cb) :
    invokesOf (execCbEvents cb) = [cb] := by
  simp [execCbEvents, invokesOf, invokesOf_map_hostCall]

theorem pause_notMem_execCbEvents (cb : Cb) : Event.pause ∉ execCbEvents cb := by
  simp [execCbEvents]

theorem resume_notMem_execCbEvents (cb : Cb) : Event.resume ∉ execCbEvents cb := by
  simp [execCbEvents]

theorem pause_notMem_runFns (fns : List Cb) : Event.pause ∉ (runFns fns).1 := by
  induction fns with
  | nil => simp [runFns]
  | cons cb rest ih =>
    cases hcb : cb.err with
    | some e => simpa [runFns, hcb] using pause_notMem_execCbEvents cb
    | none => simp [runFns, hcb, pause_notMem_execCbEvents cb, ih]

theorem resume_notMem_runFns (fns : List Cb) : Event.resume ∉ (runFns fns).1 := by
  induction fns with
  | nil => simp [runFns]
  | cons cb rest ih =>
    cases hcb : cb.err with
    | some e => simpa [runFns, hcb] using resume_notMem_execCbEvents cb
    | none => simp [runFns, hcb, resume_notMem_execCbEvents cb, ih]

theorem pause_notMem_notifyAllN (h : Heap) (refs : List Cell) :
    Event.pause ∉ (notifyAllN h refs).1 := by
  induction refs with
  | nil => simp [notifyAllN]
  | cons c rest ih =>
    cases c with
    | none => simpa [notifyAllN] using ih
    | some r =>
      cases hq : (notifyN h r).2 with
      | some e => simpa [notifyAllN, hq] using pause_notMem_runFns (fnsOf h r)
      | none =>
        simp only [notifyN] at hq
        simp [notifyAllN, notifyN, hq, pause_notMem_runFns (fnsOf h r), ih]

theorem resume_notMem_notifyAllN (h : Heap) (refs : List Cell) :
    Event.resume ∉ (notifyAllN h refs).1 := by
  induction refs with
  | nil => simp [notifyAllN]
  | cons c rest ih =>
    cases c with
    | none => simpa [notifyAllN] using ih
    | some r =>
      cases hq : (notifyN h r).2 with
      | some e => simpa [notifyAllN, hq] using resume_notMem_runFns (fnsOf h r)
      | none =>
        simp only [notifyN] at hq
        simp [notifyAllN, notifyN, hq, resume_notMem_runFns (fnsOf h r), ih]

/-! ## Successful-execution lemmas -/

theorem runFns_snd_eq_none (fns : List Cb) (hok : ∀ cb ∈ fns, cb.err = none) :
    (runFns fns).2 = none := by
  induction fns with
  | nil => rfl
  | cons cb rest ih =>
    have hcb : cb.err = none := hok cb (by simp)
    simp [runFns, hcb, ih (fun c hc => hok c (by simp [hc]))]

theorem invokesOf_runFns (fns : List Cb) (hok : ∀ cb ∈ fns, cb.err = none) :
    invokesOf (runFns fns).1 = fns := by
  induction fns with
  | nil => rfl
  | cons cb rest ih =>
    have hcb : cb.err = none := hok cb (by simp)
    simp [runFns, hcb, invokesOf_append, invokesOf_execCbEvents,
      ih (fun c hc => hok c (by simp [hc]))]

/-- The concatenation, in order, of the `notifyFns` of the present cells:
the callbacks `notifyAll` triggers when nothing throws. -/
def presentFns (h : Heap) : List Cell → List Cb
  | [] => []
  | none :: rest => presentFns h rest
  | some r :: rest => fnsOf h r ++ presentFns h rest

theorem notifyAllN_ok (h : Heap) (refs : List Cell)
    (hok : ∀ r : Nat, some r ∈ refs → ∀ cb ∈ fnsOf h r, cb.err = none) :
    (notifyAllN h refs).2 = none ∧
      invokesOf (notifyAllN h refs).1 = presentFns h refs := by
  induction refs with
  | nil => exact ⟨rfl, rfl⟩
  | cons c rest ih =>
    cases c with
    | none =>
      simpa [notifyAllN, presentFns] using ih (fun r hr => hok r (by simp [hr]))
    | some r =>
      have hr := hok r (by simp)
      have h2 := runFns_snd_eq_none (fnsOf h r) hr
      have h1 := invokesOf_runFns (fnsOf h r) hr
      have ihr := ih (fun r' hr' => hok r' (by simp [hr']))
      simp [notifyAllN, notifyN, presentFns, h2, invokesOf_append, h1, ihr.1, ihr.2]

/-! ## Resolution lemmas -/

theorem resolveAll_error_of_mem (pcells : List PCell) (e : Nat)
    (hmem : PCell.pdef (Except.error e) ∈ pcells) :
    ∃ e', resolveAll pcells = Except.error e' := by
  induction pcells with
  | nil => cases hmem
  | cons p rest ih =>
    rcases List.mem_cons.mp hmem with hp | hp
    · subst hp
      exact ⟨e, rfl⟩
    · match p with
      | PCell.imm c =>
        obtain ⟨e', he'⟩ := ih hp
        exact ⟨e', by simp [resolveAll, he', Except.map]⟩
      | PCell.pdef (Except.ok c) =>
        obtain ⟨e', he'⟩ := ih hp
        exact ⟨e', by simp [resolveAll, he', Except.map]⟩
      | PCell.pdef (Except.error e0) =>
        exact ⟨e0, rfl⟩

/-! ## Fold lemmas for `combine` -/

theorem foldl_concatStep_fst (rest : List Nat) (p : Nat × Heap) :
    (rest.foldl concatStep p).1 = p.1 := by
  induction rest generalizing p with
  | nil => rfl
  | cons cur rest ih => exact ih (concatStep p cur)

theorem foldl_concatStep_fns (rest : List Nat) (h : Heap) (n0 : Nat)
    (hn0 : n0 < h.length) :
    ∃ tail, fnsOf (rest.foldl concatStep (n0, h)).2 n0 = fnsOf h n0 ++ tail := by
  induction rest generalizing h with
  | nil => exact ⟨[], (List.append_nil _).symm⟩
  | cons cur rest ih =>
    have hn0' : n0 < (h.set n0 (fnsOf h n0 ++ fnsOf h cur)).length := by
      simpa using hn0
    obtain ⟨tail, htail⟩ := ih (h.set n0 (fnsOf h n0 ++ fnsOf h cur)) hn0'
    refine ⟨fnsOf h cur ++ tail, ?_⟩
    calc fnsOf ((cur :: rest).foldl concatStep (n0, h)).2 n0
        = fnsOf (rest.foldl concatStep (n0, h.set n0 (fnsOf h n0 ++ fnsOf h cur))).2 n0 := rfl
      _ = fnsOf (h.set n0 (fnsOf h n0 ++ fnsOf h cur)) n0 ++ tail := htail
      _ = (fnsOf h n0 ++ fnsOf h cur) ++ tail := by
          rw [fnsOf_set_self h n0 _ hn0]
      _ = fnsOf h n0 ++ (fnsOf h cur ++ tail) := List.append_assoc _ _ _

/-! ## Claim theorems -/

/-- C1 (code behaviour at the failing input): `runAll` over a single
Notifier created from a throwing callback emits the `pauseNotification`
call and the callback invocation, then surfaces the exception with
`resumeNotification` never called — the host is left paused, contradicting
the claim that the window is always closed before the caller observes the
exception. -/
theorem runAllN_notify_throw_leaves_host_paused :
    runAllN [[⟨[], some 7⟩]] [PCell.imm (some 0)] =
      ([Event.pause, Event.invoke ⟨[], some 7⟩], Except.error 7) ∧
    Event.resume ∉ (runAllN [[⟨[], some 7⟩]] [PCell.imm (some 0)]).1 ∧
    (runAllN [[⟨[], some 7⟩]] [PCell.imm (some 0)]).1.count Event.pause = 1 := by
  refine ⟨rfl, by decide, rfl⟩

/-- C2: if any element of `runAll`'s input is a deferred cell whose
resolution fails, the failure propagates to the caller with an empty event
trace: `pauseNotification` and `resumeNotification` are never called and no
host mutation occurs; the same holds for `run` on a failing deferred cell. -/
theorem runAllN_resolution_failure_propagates (h : Heap) (pcells : List PCell)
    (e : Nat) (hmem : PCell.pdef (Except.error e) ∈ pcells) :
    (∃ e', runAllN h pcells = ([], Except.error e')) ∧
    runStatic h (PCell.pdef (Except.error e)) = ([], Except.error e) := by
  obtain ⟨e', he'⟩ := resolveAll_error_of_mem pcells e hmem
  exact ⟨⟨e', by simp [runAllN, he']⟩, rfl⟩

theorem runAllN_resolution_failure_propagates_witness :
    PCell.pdef (Except.error 5) ∈ [PCell.imm none, PCell.pdef (Except.error 5)] ∧
    ((∃ e', runAllN [] [PCell.imm none, PCell.pdef (Except.error 5)] =
        ([], Except.error e')) ∧
      runStatic [] (PCell.pdef (Except.error 5)) = ([], Except.error 5)) :=
  ⟨by simp,
    runAllN_resolution_failure_propagates [] [PCell.imm none, PCell.pdef (Except.error 5)] 5
      (by simp)⟩

/-- C9: `runAll` on the empty list performs zero notify calls, still opens
and closes the batching window, and completes successfully. -/
theorem runAllN_nil (h : Heap) :
    runAllN h [] = ([Event.pause, Event.resume], Except.ok ()) ∧
    invokesOf (runAllN h []).1 = [] :=
  ⟨rfl, rfl⟩

/-- C3: for a non-empty input whose resolutions all succeed and whose
callbacks do not throw, `runAll` emits exactly one `pauseNotification` and
one `resumeNotification`; resolution happens before the pause (the trace is
`pause`, then the notify events of the resolved array, then `resume`),
completes successfully, and the callbacks invoked between pause and resume
are exactly the `notifyFns` of the present resolved cells, in resolved-array
order, with absent slots skipped. -/
theorem runAllN_batches_once (h : Heap) (pcells : List PCell) (refs : List Cell)
    (_hne : pcells ≠ [])
    (hres : resolveAll pcells = Except.ok refs)
    (hok : ∀ r : Nat, some r ∈ refs → ∀ cb ∈ fnsOf h r, cb.err = none) :
    runAllN h pcells =
      (Event.pause :: ((notifyAllN h refs).1 ++ [Event.resume]), Except.ok ()) ∧
    (runAllN h pcells).1.count Event.pause = 1 ∧
    (runAllN h pcells).1.count Event.resume = 1 ∧
    invokesOf (runAllN h pcells).1 = presentFns h refs := by
  have hn := notifyAllN_ok h refs hok
  have hrunEq : runAllN h pcells =
      (Event.pause :: ((notifyAllN h refs).1 ++ [Event.resume]), Except.ok ()) := by
    simp [runAllN, hres, hn.1]
  refine ⟨hrunEq, ?_, ?_, ?_⟩
  · rw [hrunEq]
    simp [List.count_cons, List.count_append, List.count_singleton,
      List.count_eq_zero.mpr (pause_notMem_notifyAllN h refs)]
  · rw [hrunEq]
    simp [List.count_cons, List.count_append, List.count_singleton,
      List.count_eq_zero.mpr (resume_notMem_notifyAllN h refs)]
  · rw [hrunEq]
    simp [invokesOf, invokesOf_append, hn.2]

theorem runAllN_batches_once_witness :
    ([PCell.imm (some 0), PCell.pdef (Except.ok (some 1)), PCell.imm none] ≠
        ([] : List PCell)) ∧
    resolveAll [PCell.imm (some 0), PCell.pdef (Except.ok (some 1)), PCell.imm none] =
      Except.ok [some 0, some 1, none] ∧
    (runAllN [[⟨[1], none⟩], [⟨[2], none⟩]]
        [PCell.imm (some 0), PCell.pdef (Except.ok (some 1)), PCell.imm none] =
      (Event.pause ::
          ((notifyAllN [[⟨[1], none⟩], [⟨[2], none⟩]] [some 0, some 1, none]).1 ++
            [Event.resume]),
        Except.ok ()) ∧
      (runAllN [[⟨[1], none⟩], [⟨[2], none⟩]]
          [PCell.imm (some 0), PCell.pdef (Except.ok (some 1)), PCell.imm none]).1.count
          Event.pause = 1 ∧
      (runAllN [[⟨[1], none⟩], [⟨[2], none⟩]]
          [PCell.imm (some 0), PCell.pdef (Except.ok (some 1)), PCell.imm none]).1.count
          Event.resume = 1 ∧
      invokesOf (runAllN [[⟨[1], none⟩], [⟨[2], none⟩]]
          [PCell.imm (some 0), PCell.pdef (Except.ok (some 1)), PCell.imm none]).1 =
        presentFns [[⟨[1], none⟩], [⟨[2], none⟩]] [some 0, some 1, none]) :=
  ⟨by simp, rfl,
    runAllN_batches_once [[⟨[1], none⟩], [⟨[2], none⟩]]
      [PCell.imm (some 0), PCell.pdef (Except.ok (some 1)), PCell.imm none]
      [some 0, some 1, none] (by simp) rfl
      (by
        intro r hr cb hcb
        simp only [List.mem_cons, Option.some.injEq, List.not_mem_nil, or_false,
          reduceCtorEq] at hr
        rcases hr with rfl | rfl
        · simp [fnsOf] at hcb
          subst hcb
          rfl
        · simp [fnsOf] at hcb
          subst hcb
          rfl)⟩

/-- C4: when the compacted list is empty (in particular for `combine([])`),
`combine` returns a freshly allocated Notifier — never an absent value —
holding exactly the single empty callback; its `notify()` invokes only that
empty callback, performs no host call, and throws nothing. -/
theorem combineN_empty_noop (h : Heap) (cells : List Cell)
    (hred : cells.reduceOption = []) :
    (combineN h cells).1 = h.length ∧
    fnsOf (combineN h cells).2 (combineN h cells).1 = [noopCb] ∧
    notifyN (combineN h cells).2 (combineN h cells).1 =
      ([Event.invoke noopCb], none) ∧
    ∀ n : Nat, Event.hostCall n ∉ (notifyN (combineN h cells).2 (combineN h cells).1).1 := by
  have hc : combineN h cells = createN h noopCb := by
    simp [combineN, hred, combineCore]
  rw [hc]
  have hfns := fnsOf_createN h noopCb
  refine ⟨rfl, hfns, ?_, ?_⟩
  · simp only [notifyN]
    rw [hfns]
    simp [runFns, execCbEvents, noopCb]
  · intro n
    simp only [notifyN]
    rw [hfns]
    simp [runFns, execCbEvents, noopCb]

theorem combineN_empty_noop_witness :
    ([none, none] : List Cell).reduceOption = [] ∧
    ((combineN [] [none, none]).1 = List.length ([] : Heap) ∧
      fnsOf (combineN [] [none, none]).2 (combineN [] [none, none]).1 = [noopCb] ∧
      notifyN (combineN [] [none, none]).2 (combineN [] [none, none]).1 =
        ([Event.invoke noopCb], none) ∧
      ∀ n : Nat,
        Event.hostCall n ∉
          (notifyN (combineN [] [none, none]).2 (combineN [] [none, none]).1).1) :=
  ⟨by simp, combineN_empty_noop [] [none, none] (by simp)⟩

/-- C5: whenever exactly one entry remains after filtering absent entries —
in particular for `combine([n])` — `combine` returns that very Notifier
reference with the heap untouched: the identical unchanged instance, with no
wrapping. -/
theorem combineN_singleton_id (h : Heap) (cells : List Cell) (n : Nat)
    (hred : cells.reduceOption = [n]) :
    combineN h cells = (n, h) := by
  simp [combineN, hred, combineCore]

theorem combineN_singleton_id_witness :
    ([none, some 3, none] : List Cell).reduceOption = [3] ∧
    combineN [[noopCb], [noopCb], [noopCb], [noopCb]] [none, some 3, none] =
      (3, [[noopCb], [noopCb], [noopCb], [noopCb]]) :=
  ⟨by simp, combineN_singleton_id [[noopCb], [noopCb], [noopCb], [noopCb]]
    [none, some 3, none] 3 (by simp)⟩

/-- C6: `combine([a,b,c]).notify()` invokes `a`'s callbacks, then `b`'s,
then `c`'s, in that order, exactly once each (the invoked-callback trace is
exactly the concatenation of the three `notifyFns` sequences) and throws
nothing; and `combine` filters absent entries: `combine([null, x, undefined,
y])` equals `combine([x, y])` for every heap and every pair of cells. -/
theorem combineN_three_ordered (h : Heap) (a b c : Nat)
    (ha : a < h.length) (_hab : a ≠ b) (hac : a ≠ c)
    (hoka : ∀ cb ∈ fnsOf h a, cb.err = none)
    (hokb : ∀ cb ∈ fnsOf h b, cb.err = none)
    (hokc : ∀ cb ∈ fnsOf h c, cb.err = none) :
    (combineN h [some a, some b, some c]).1 = a ∧
    invokesOf (notifyN (combineN h [some a, some b, some c]).2 a).1 =
      fnsOf h a ++ fnsOf h b ++ fnsOf h c ∧
    (notifyN (combineN h [some a, some b, some c]).2 a).2 = none ∧
    ∀ (g : Heap) (x y : Cell), combineN g [none, x, none, y] = combineN g [x, y] := by
  have hcomb : combineN h [some a, some b, some c] =
      (a, (h.set a (fnsOf h a ++ fnsOf h b)).set a
        (fnsOf (h.set a (fnsOf h a ++ fnsOf h b)) a ++
          fnsOf (h.set a (fnsOf h a ++ fnsOf h b)) c)) := rfl
  have ha' : a < (h.set a (fnsOf h a ++ fnsOf h b)).length := by simpa using ha
  have e3 : fnsOf (combineN h [some a, some b, some c]).2 a =
      (fnsOf h a ++ fnsOf h b) ++ fnsOf h c := by
    rw [hcomb]
    show fnsOf ((h.set a (fnsOf h a ++ fnsOf h b)).set a
      (fnsOf (h.set a (fnsOf h a ++ fnsOf h b)) a ++
        fnsOf (h.set a (fnsOf h a ++ fnsOf h b)) c)) a = _
    rw [fnsOf_set_self _ a _ ha', fnsOf_set_self h a _ ha, fnsOf_set_ne h a c _ hac]
  have hokall : ∀ cb ∈ (fnsOf h a ++ fnsOf h b) ++ fnsOf h c, cb.err = none := by
    intro cb hcb
    rcases List.mem_append.mp hcb with hcb | hcb
    · rcases List.mem_append.mp hcb with hcb | hcb
      · exact hoka cb hcb
      · exact hokb cb hcb
    · exact hokc cb hcb
  refine ⟨by rw [hcomb], ?_, ?_, ?_⟩
  · simp only [notifyN]
    rw [e3]
    exact invokesOf_runFns _ hokall
  · simp only [notifyN]
    rw [e3]
    exact runFns_snd_eq_none _ hokall
  · intro g x y
    cases x <;> cases y <;> rfl

theorem combineN_three_ordered_witness :
    0 < List.length [[(⟨[1], none⟩ : Cb)], [⟨[2], none⟩], [⟨[3], none⟩]] ∧
    (0 : Nat) ≠ 1 ∧ (0 : Nat) ≠ 2 ∧
    ((combineN [[⟨[1], none⟩], [⟨[2], none⟩], [⟨[3], none⟩]]
        [some 0, some 1, some 2]).1 = 0 ∧
      invokesOf (notifyN (combineN [[⟨[1], none⟩], [⟨[2], none⟩], [⟨[3], none⟩]]
          [some 0, some 1, some 2]).2 0).1 =
        fnsOf [[⟨[1], none⟩], [⟨[2], none⟩], [⟨[3], none⟩]] 0 ++
          fnsOf [[⟨[1], none⟩], [⟨[2], none⟩], [⟨[3], none⟩]] 1 ++
          fnsOf [[⟨[1], none⟩], [⟨[2], none⟩], [⟨[3], none⟩]] 2 ∧
      (notifyN (combineN [[⟨[1], none⟩], [⟨[2], none⟩], [⟨[3], none⟩]]
          [some 0, some 1, some 2]).2 0).2 = none ∧
      ∀ (g : Heap) (x y : Cell), combineN g [none, x, none, y] = combineN g [x, y]) :=
  ⟨by decide, by decide, by decide,
    combineN_three_ordered [[⟨[1], none⟩], [⟨[2], none⟩], [⟨[3], none⟩]] 0 1 2
      (by decide) (by decide) (by decide)
      (by
        intro cb hcb
        simp [fnsOf] at hcb
        subst hcb
        rfl)
      (by
        intro cb hcb
        simp [fnsOf] at hcb
        subst hcb
        rfl)
      (by
        intro cb hcb
        simp [fnsOf] at hcb
        subst hcb
        rfl)⟩

/-- C7: `concat` returns the receiver itself (mutating combine); the
receiver's callback sequence becomes the concatenation of the operands'
sequences in order; and for distinct instances `x`, `y`, `z`, the result
reference and the callback sequence of `(x.concat(y)).concat(z)` equal those
of `x.concat(y.concat(z))` (associativity). -/
theorem concatN_assoc (h : Heap) (x y z : Nat)
    (hx : x < h.length) (hy : y < h.length) (hxy : x ≠ y) (hxz : x ≠ z) :
    (concatN h x y).1 = x ∧
    fnsOf (concatN h x y).2 x = fnsOf h x ++ fnsOf h y ∧
    (concatN (concatN h x y).2 x z).1 =
      (concatN (concatN h y z).2 x (concatN h y z).1).1 ∧
    fnsOf (concatN (concatN h x y).2 x z).2 (concatN (concatN h x y).2 x z).1 =
      fnsOf (concatN (concatN h y z).2 x (concatN h y z).1).2
        (concatN (concatN h y z).2 x (concatN h y z).1).1 := by
  have hx1 : x < (h.set x (fnsOf h x ++ fnsOf h y)).length := by simpa using hx
  have hx2 : x < (h.set y (fnsOf h y ++ fnsOf h z)).length := by simpa using hx
  have l1 : fnsOf (concatN (concatN h x y).2 x z).2 x =
      (fnsOf h x ++ fnsOf h y) ++ fnsOf h z := by
    show fnsOf ((h.set x (fnsOf h x ++ fnsOf h y)).set x
      (fnsOf (h.set x (fnsOf h x ++ fnsOf h y)) x ++
        fnsOf (h.set x (fnsOf h x ++ fnsOf h y)) z)) x = _
    rw [fnsOf_set_self _ x _ hx1, fnsOf_set_self h x _ hx, fnsOf_set_ne h x z _ hxz]
  have l2 : fnsOf (concatN (concatN h y z).2 x (concatN h y z).1).2 x =
      fnsOf h x ++ (fnsOf h y ++ fnsOf h z) := by
    show fnsOf ((h.set y (fnsOf h y ++ fnsOf h z)).set x
      (fnsOf (h.set y (fnsOf h y ++ fnsOf h z)) x ++
        fnsOf (h.set y (fnsOf h y ++ fnsOf h z)) y)) x = _
    rw [fnsOf_set_self _ x _ hx2, fnsOf_set_ne h y x _ (Ne.symm hxy),
      fnsOf_set_self h y _ hy]
  exact ⟨rfl, fnsOf_set_self h x _ hx, rfl, by
    show fnsOf (concatN (concatN h x y).2 x z).2 x =
      fnsOf (concatN (concatN h y z).2 x (concatN h y z).1).2 x
    rw [l1, l2, List.append_assoc]⟩

theorem concatN_assoc_witness :
    0 < List.length [[(⟨[1], none⟩ : Cb)], [⟨[2], none⟩], [⟨[3], none⟩]] ∧
    1 < List.length [[(⟨[1], none⟩ : Cb)], [⟨[2], none⟩], [⟨[3], none⟩]] ∧
    (0 : Nat) ≠ 1 ∧ (0 : Nat) ≠ 2 ∧
    ((concatN [[⟨[1], none⟩], [⟨[2], none⟩], [⟨[3], none⟩]] 0 1).1 = 0 ∧
      fnsOf (concatN [[⟨[1], none⟩], [⟨[2], none⟩], [⟨[3], none⟩]] 0 1).2 0 =
        fnsOf [[⟨[1], none⟩], [⟨[2], none⟩], [⟨[3], none⟩]] 0 ++
          fnsOf [[⟨[1], none⟩], [⟨[2], none⟩], [⟨[3], none⟩]] 1 ∧
      (concatN (concatN [[⟨[1], none⟩], [⟨[2], none⟩], [⟨[3], none⟩]] 0 1).2 0 2).1 =
        (concatN (concatN [[⟨[1], none⟩], [⟨[2], none⟩], [⟨[3], none⟩]] 1 2).2 0
          (concatN [[⟨[1], none⟩], [⟨[2], none⟩], [⟨[3], none⟩]] 1 2).1).1 ∧
      fnsOf (concatN (concatN [[⟨[1], none⟩], [⟨[2], none⟩], [⟨[3], none⟩]] 0 1).2 0 2).2
          (concatN (concatN [[⟨[1], none⟩], [⟨[2], none⟩], [⟨[3], none⟩]] 0 1).2 0 2).1 =
        fnsOf (concatN (concatN [[⟨[1], none⟩], [⟨[2], none⟩], [⟨[3], none⟩]] 1 2).2 0
            (concatN [[⟨[1], none⟩], [⟨[2], none⟩], [⟨[3], none⟩]] 1 2).1).2
          (concatN (concatN [[⟨[1], none⟩], [⟨[2], none⟩], [⟨[3], none⟩]] 1 2).2 0
            (concatN [[⟨[1], none⟩], [⟨[2], none⟩], [⟨[3], none⟩]] 1 2).1).1) :=
  ⟨by decide, by decide, by decide, by decide,
    concatN_assoc [[⟨[1], none⟩], [⟨[2], none⟩], [⟨[3], none⟩]] 0 1 2
      (by decide) (by decide) (by decide) (by decide)⟩

/-- C8: every Notifier obtained through the public factory operations has a
nonempty callback sequence: `create(fn)`'s sequence is exactly `[fn]`;
`concat` keeps the receiver's sequence nonempty; `combine` over cells whose
present entries are factory-built (in range, nonempty sequences) yields a
nonempty sequence.  In the embedding `create`, `concat` and `combine` are
pure heap transformers producing no `Event`: no callback executes upon
construction or combination — only `notify`/`run`/`runAll` produce events. -/
theorem factory_seq_nonempty (h : Heap) (cb : Cb) (x y : Nat) (cells : List Cell)
    (hx : x < h.length) (hxne : fnsOf h x ≠ [])
    (hcells : ∀ r : Nat, some r ∈ cells → r < h.length ∧ fnsOf h r ≠ []) :
    fnsOf (createN h cb).2 (createN h cb).1 = [cb] ∧
    fnsOf (concatN h x y).2 (concatN h x y).1 ≠ [] ∧
    fnsOf (combineN h cells).2 (combineN h cells).1 ≠ [] := by
  refine ⟨fnsOf_createN h cb, ?_, ?_⟩
  · show fnsOf (h.set x (fnsOf h x ++ fnsOf h y)) x ≠ []
    rw [fnsOf_set_self h x _ hx]
    intro hcontra
    exact hxne (List.append_eq_nil.mp hcontra).1
  · cases hred : cells.reduceOption with
    | nil =>
      have hc : combineN h cells = createN h noopCb := by
        simp [combineN, hred, combineCore]
      rw [hc, fnsOf_createN]
      simp
    | cons n0 rest =>
      have hn0mem : some n0 ∈ cells :=
        List.reduceOption_mem_iff.mp (by rw [hred]; exact List.mem_cons_self n0 rest)
      obtain ⟨hn0lt, hn0ne⟩ := hcells n0 hn0mem
      cases rest with
      | nil =>
        have hc : combineN h cells = (n0, h) := by
          simp [combineN, hred, combineCore]
        rw [hc]
        exact hn0ne
      | cons n1 rest' =>
        have hc : combineN h cells = (n1 :: rest').foldl concatStep (n0, h) := by
          simp [combineN, hred, combineCore]
        rw [hc]
        show fnsOf ((n1 :: rest').foldl concatStep (n0, h)).2
          ((n1 :: rest').foldl concatStep (n0, h)).1 ≠ []
        rw [foldl_concatStep_fst]
        show fnsOf ((n1 :: rest').foldl concatStep (n0, h)).2 n0 ≠ []
        obtain ⟨tail, htail⟩ := foldl_concatStep_fns (n1 :: rest') h n0 hn0lt
        rw [htail]
        intro hcontra
        exact hn0ne (List.append_eq_nil.mp hcontra).1

theorem factory_seq_nonempty_witness :
    0 < List.length [[(⟨[1], none⟩ : Cb)], [⟨[2], none⟩]] ∧
    fnsOf [[(⟨[1], none⟩ : Cb)], [⟨[2], none⟩]] 0 ≠ [] ∧
    (fnsOf (createN [[(⟨[1], none⟩ : Cb)], [⟨[2], none⟩]] noopCb).2
        (createN [[(⟨[1], none⟩ : Cb)], [⟨[2], none⟩]] noopCb).1 = [noopCb] ∧
      fnsOf (concatN [[(⟨[1], none⟩ : Cb)], [⟨[2], none⟩]] 0 1).2
        (concatN [[(⟨[1], none⟩ : Cb)], [⟨[2], none⟩]] 0 1).1 ≠ [] ∧
      fnsOf (combineN [[(⟨[1], none⟩ : Cb)], [⟨[2], none⟩]] [some 0, some 1]).2
        (combineN [[(⟨[1], none⟩ : Cb)], [⟨[2], none⟩]] [some 0, some 1]).1 ≠ []) :=
  ⟨by decide, by decide,
    factory_seq_nonempty [[⟨[1], none⟩], [⟨[2], none⟩]] noopCb 0 1 [some 0, some 1]
      (by decide) (by decide)
      (by
        intro r hr
        simp only [List.mem_cons, Option.some.injEq, List.not_mem_nil, or_false] at hr
        rcases hr with rfl | rfl
        · exact ⟨by decide, by decide⟩
        · exact ⟨by decide, by decide⟩)⟩

/-- C10: `concat` copies the operand's callbacks instead of consuming them:
after `a.concat(b)` the operand `b`'s sequence is unchanged and `b.notify()`
still invokes exactly `b`'s original callbacks; and a callback of `b` not
also held by `a` is executed twice in total when both `a.notify()` and
`b.notify()` are triggered after the concat. -/
theorem concatN_operand_unchanged (h : Heap) (a b : Nat)
    (ha : a < h.length) (hab : a ≠ b)
    (hoka : ∀ cb ∈ fnsOf h a, cb.err = none)
    (hokb : ∀ cb ∈ fnsOf h b, cb.err = none) :
    fnsOf (concatN h a b).2 b = fnsOf h b ∧
    invokesOf (notifyN (concatN h a b).2 b).1 = fnsOf h b ∧
    ∀ cb : Cb, cb ∉ fnsOf h a →
      (invokesOf ((notifyN (concatN h a b).2 a).1 ++
          (notifyN (concatN h a b).2 b).1)).count cb =
        2 * (fnsOf h b).count cb := by
  have hb' : fnsOf (concatN h a b).2 b = fnsOf h b := fnsOf_set_ne h a b _ hab
  have ha' : fnsOf (concatN h a b).2 a = fnsOf h a ++ fnsOf h b :=
    fnsOf_set_self h a _ ha
  have hokab : ∀ cb ∈ fnsOf h a ++ fnsOf h b, cb.err = none := by
    intro cb hcb
    rcases List.mem_append.mp hcb with hcb | hcb
    · exact hoka cb hcb
    · exact hokb cb hcb
  have ia : invokesOf (notifyN (concatN h a b).2 a).1 = fnsOf h a ++ fnsOf h b := by
    simp only [notifyN]
    rw [ha']
    exact invokesOf_runFns _ hokab
  have ib : invokesOf (notifyN (concatN h a b).2 b).1 = fnsOf h b := by
    simp only [notifyN]
    rw [hb']
    exact invokesOf_runFns _ hokb
  refine ⟨hb', ib, ?_⟩
  intro cb hcb
  rw [invokesOf_append, ia, ib, List.count_append, List.count_append,
    List.count_eq_zero.mpr hcb]
  omega

theorem concatN_operand_unchanged_witness :
    0 < List.length [[(⟨[1], none⟩ : Cb)], [⟨[2], none⟩]] ∧
    (0 : Nat) ≠ 1 ∧
    (fnsOf (concatN [[(⟨[1], none⟩ : Cb)], [⟨[2], none⟩]] 0 1).2 1 =
        fnsOf [[(⟨[1], none⟩ : Cb)], [⟨[2], none⟩]] 1 ∧
      invokesOf (notifyN (concatN [[(⟨[1], none⟩ : Cb)], [⟨[2], none⟩]] 0 1).2 1).1 =
        fnsOf [[(⟨[1], none⟩ : Cb)], [⟨[2], none⟩]] 1 ∧
      (invokesOf ((notifyN (concatN [[(⟨[1], none⟩ : Cb)], [⟨[2], none⟩]] 0 1).2 0).1 ++
          (notifyN (concatN [[(⟨[1], none⟩ : Cb)], [⟨[2], none⟩]] 0 1).2 1).1)).count
          (⟨[2], none⟩ : Cb) =
        2 * (fnsOf [[(⟨[1], none⟩ : Cb)], [⟨[2], none⟩]] 1).count (⟨[2], none⟩ : Cb)) :=
  ⟨by decide, by decide,
    (concatN_operand_unchanged [[⟨[1], none⟩], [⟨[2], none⟩]] 0 1
      (by decide) (by decide)
      (by
        intro cb hcb
        simp [fnsOf] at hcb
        subst hcb
        rfl)
      (by
        intro cb hcb
        simp [fnsOf] at hcb
        subst hcb
        rfl)).1,
    (concatN_operand_unchanged [[⟨[1], none⟩], [⟨[2], none⟩]] 0 1
      (by decide) (by decide)
      (by
        intro cb hcb
        simp [fnsOf] at hcb
        subst hcb
        rfl)
      (by
        intro cb hcb
        simp [fnsOf] at hcb
        subst hcb
        rfl)).2.1,
    (concatN_operand_unchanged [[⟨[1], none⟩], [⟨[2], none⟩]] 0 1
      (by decide) (by decide)
      (by
        intro cb hcb
        simp [fnsOf] at hcb
        subst hcb
        rfl)
      (by
        intro cb hcb
        simp [fnsOf] at hcb
        subst hcb
        rfl)).2.2 ⟨[2], none⟩ (by decide)⟩
